import Mathlib

/-
Verification development for the schema- and cardinality-inference module
`crates/polars-plan/src/logical_plan/schema.rs` of the polars repository.

The Rust module is shallowly embedded below:
 * `Schema` (an ordered, insertion-preserving name-to-dtype map backed by an
   index map in Rust) is a list of name/dtype pairs; the index-map insert
   operation (replace the value in place when the name is present, append
   otherwise) is `with_column`.
 * `det_join_schema` is translated phase by phase: the copy of the left
   schema, the overlay of the left join-key output fields, the extra key
   columns of as-of joins, the resolution of the right join-key names, and
   the final append loop over the right schema.
 * the row-count estimator `set_estimated_row_counts` is translated over an
   explicit arena of plan nodes with the scratch stack of node handles that
   the Rust code threads through the recursion, using a fuel parameter for
   termination (the Rust recursion is bounded by the acyclicity of the plan
   graph, which a plain handle arena cannot express).
 * machine integers (`usize`) are modelled as `Nat`; `saturating_add` keeps
   its explicit clamp at `2 ^ 64 - 1`.  The `f32` selectivity-decay
   expression `(estimated_size as f32 * 0.9f32.powf(filter_count as f32)) as
   usize` cannot be shallowly embedded (its value depends on platform
   floating-point `powf` rounding), so the estimator takes the decay
   function as an explicit parameter; every theorem below either quantifies
   over it or exercises only paths on which the Rust code never evaluates
   the expression (filter count zero).
-/

namespace PolarsSchema

/-- Data types of columns.  The Rust `DataType` enum is large; the claims
only need that dtypes form an infinite type with decidable equality, so the
remaining variants are collapsed into `other`. -/
inductive DType where
  | int
  | str
  | boolean
  | float
  | other (code : Nat)
deriving DecidableEq, Repr

/-- Schema: ordered sequence of (name, dtype) pairs.  The Rust `Schema` is
an `IndexMap`, so any value reachable from Rust has pairwise distinct
names; theorems that need that invariant take it as a hypothesis. -/
abbrev Schema := List (String × DType)

/-- Column names of a schema, in order. -/
def schema_names (s : Schema) : List String :=
  s.map Prod.fst

/-- Name-containment check of the Rust `Schema::contains`. -/
def schema_contains (s : Schema) (n : String) : Bool :=
  s.any (fun p => p.1 == n)

/-- Rust `Schema::with_column` (index-map insert): if the name is already
present, the dtype stored at the existing position is replaced in place;
otherwise the pair is appended at the end. -/
def with_column (s : Schema) (n : String) (d : DType) : Schema :=
  if schema_contains s n then
    s.map (fun p => if p.1 == n then (n, d) else p)
  else
    s ++ [(n, d)]

/-- Output field of a resolved expression: a name and a dtype. -/
structure Field where
  name : String
  dtype : DType
deriving DecidableEq, Repr

/-- Modelled from the spec: expression resolution (`Expr::to_field_amortized`)
lives outside the excerpted module; the spec describes an expression only
through the interface "resolve output (name, type) against a given schema"
(failing on an unresolvable reference).  An expression is modelled as that
resolution function directly, which is the most general faithful model:
aliasing and dtype-changing expressions are particular values of this
type. -/
def Expr := Schema → Option Field

/-- Resolve an expression against a schema (`to_field_amortized`). -/
def to_field (e : Expr) (s : Schema) : Option Field :=
  e s

/-- Modelled from the spec: per-side "by" column lists of as-of joins. -/
structure AsOfOptions where
  left_by : Option (List String)
  right_by : Option (List String)
deriving DecidableEq, Repr

/-- Join kinds of `JoinType`, as matched by the excerpted module. -/
inductive JoinType where
  | inner
  | left
  | outer (coalesce : Bool)
  | cross
  | semi
  | anti
  | asof (options : AsOfOptions)
deriving DecidableEq, Repr

/-- Modelled from the spec: `JoinType::merges_join_keys` is not part of the
excerpted module; per the spec, as-of joins are the asymmetric-key joins
whose join keys are not merged, every other kind merges them. -/
def JoinType.merges_join_keys : JoinType → Bool
  | .asof _ => false
  | _ => true

/-- Test for `matches!(how, JoinType::Outer { coalesce: false })`. -/
def is_outer_no_coalesce : JoinType → Bool
  | .outer false => true
  | _ => false

/-- Join arguments (`JoinArgs`): kind, collision suffix, output slice.  The
suffix is modelled as the plain string returned by the Rust accessor
`JoinArgs::suffix()`. -/
structure JoinArgs where
  how : JoinType
  suffix : String
  slice : Option (Int × Nat)
deriving DecidableEq, Repr

/-- Join configuration (`JoinOptions`): the arguments plus the two cached
row-estimate pairs populated by the estimator. -/
structure JoinOptions where
  args : JoinArgs
  rows_left : Option Nat × Nat
  rows_right : Option Nat × Nat
deriving DecidableEq, Repr

/-- Rust `_join_suffix_name(name, suffix)`: the suffixed column name. -/
def join_suffix_name (name suffix : String) : String :=
  name ++ suffix

/-- Phase 1 of `det_join_schema` (and also `Schema::merge`): insert every
column of `s` into `acc` in order with `with_column`. -/
def copy_schema (acc : Schema) (s : Schema) : Schema :=
  s.foldl (fun a p => with_column a p.1 p.2) acc

/-- Phase 2 of `det_join_schema`: overlay the resolved output field of
every left join-key expression onto the running schema. -/
def add_left_keys (schema_left : Schema) (left_on : List Expr) (acc : Schema) :
    Option Schema :=
  left_on.foldlM (fun a e => (to_field e schema_left).map
    (fun f => with_column a f.name f.dtype)) acc

/-- Loop body of phase 3 of `det_join_schema`: resolve one key pair and,
when the resolved names differ, insert the right key's field, suffixed when
its name occurs in the left schema. -/
def asof_key_step (schema_left schema_right : Schema) (args : JoinArgs)
    (a : Schema) (pe : Expr × Expr) : Option Schema :=
  (to_field pe.1 schema_left).bind (fun field_left =>
    (to_field pe.2 schema_right).map (fun field_right =>
      if field_left.name ≠ field_right.name then
        if schema_contains schema_left field_right.name then
          with_column a (join_suffix_name field_right.name args.suffix)
            field_right.dtype
        else
          with_column a field_right.name field_right.dtype
      else a))

/-- Phase 3 of `det_join_schema` (as-of joins only): fold `asof_key_step`
over the zipped key pairs. -/
def add_asof_right_keys (schema_left schema_right : Schema)
    (left_on right_on : List Expr) (args : JoinArgs) (acc : Schema) :
    Option Schema :=
  if args.how.merges_join_keys then some acc
  else
    (left_on.zip right_on).foldlM (asof_key_step schema_left schema_right args)
      acc

/-- Phase 4 of `det_join_schema`: the names of the resolved right join-key
fields (the Rust code collects them into a hash set; only membership is
consulted, so a list is an adequate model). -/
def join_on_right_names (schema_right : Schema) (right_on : List Expr) :
    Option (List String) :=
  right_on.foldlM (fun ns e => (to_field e schema_right).map
    (fun f => f.name :: ns)) []

/-- Test for the as-of "by"-key deduplication: the column name occurs in
both the left and the right "by" lists of an as-of join. -/
def asof_by_dedup (how : JoinType) (name : String) : Bool :=
  match how with
  | .asof opts =>
    match opts.left_by, opts.right_by with
    | some left_by, some right_by => left_by.contains name && right_by.contains name
    | _, _ => false
  | _ => false

/-- Phase 5 of `det_join_schema`: the append loop over the right schema.
A right column is considered unless its name is a merged join key (always
considered for an outer join with `coalesce = false`); a considered column
whose name occurs in the LEFT schema is inserted under its suffixed name
(except matching as-of "by" keys, which are skipped), otherwise it is
inserted under its bare name. -/
def add_right_cols (schema_left schema_right : Schema)
    (join_on_right : List String) (args : JoinArgs) (acc : Schema) : Schema :=
  schema_right.foldl (fun a p =>
    if !join_on_right.contains p.1 || is_outer_no_coalesce args.how then
      if schema_contains schema_left p.1 then
        if asof_by_dedup args.how p.1 then a
        else with_column a (join_suffix_name p.1 args.suffix) p.2
      else with_column a p.1 p.2
    else a) acc

/-- Default (non-Semi/Anti) branch of `det_join_schema`. -/
def det_join_schema_default (schema_left schema_right : Schema)
    (left_on right_on : List Expr) (options : JoinOptions) : Option Schema :=
  (add_left_keys schema_left left_on (copy_schema [] schema_left)).bind
    (fun s1 =>
      (add_asof_right_keys schema_left schema_right left_on right_on
          options.args s1).bind
        (fun s2 =>
          (join_on_right_names schema_right right_on).map
            (fun jor =>
              add_right_cols schema_left schema_right jor options.args s2)))

/-- Rust `det_join_schema`: the output schema of a join, from the two input
schemas, the key expressions and the join configuration.  Expression
resolution failures propagate as `none`. -/
def det_join_schema (schema_left schema_right : Schema)
    (left_on right_on : List Expr) (options : JoinOptions) : Option Schema :=
  match options.args.how with
  | .semi | .anti => some schema_left
  | _ => det_join_schema_default schema_left schema_right left_on right_on options

/-- Claim-side definition, following the words of the spec rather than the
source: the spec states that the output columns are the left schema's
columns in order, followed by one entry for each considered right-side
column, suffixed exactly when the name already exists.  Used to refute the
claimed column-name layout. -/
def claimed_join_names (schema_left schema_right : Schema)
    (join_on_right : List String) (args : JoinArgs) : List String :=
  schema_names schema_left ++
    (schema_right.filter (fun p =>
      !join_on_right.contains p.1 || is_outer_no_coalesce args.how)).map
      (fun p => if schema_contains schema_left p.1
                then join_suffix_name p.1 args.suffix else p.1)

/-- Claim-side variant of the right-column append loop, following the words
of the spec rather than the source: the collision check consults the
RUNNING output schema instead of the left input schema.  Used to refute the
claimed collision rule. -/
def add_right_cols_spec (_schema_left schema_right : Schema)
    (join_on_right : List String) (args : JoinArgs) (acc : Schema) : Schema :=
  schema_right.foldl (fun a p =>
    if !join_on_right.contains p.1 || is_outer_no_coalesce args.how then
      if schema_contains a p.1 then
        if asof_by_dedup args.how p.1 then a
        else with_column a (join_suffix_name p.1 args.suffix) p.2
      else with_column a p.1 p.2
    else a) acc

/-- Claim-side variant of `det_join_schema` built on `add_right_cols_spec`;
identical to the source translation in every other respect. -/
def det_join_schema_spec (schema_left schema_right : Schema)
    (left_on right_on : List Expr) (options : JoinOptions) : Option Schema :=
  match options.args.how with
  | .semi | .anti => some schema_left
  | _ =>
    (add_left_keys schema_left left_on (copy_schema [] schema_left)).bind
      (fun s1 =>
        (add_asof_right_keys schema_left schema_right left_on right_on
            options.args s1).bind
          (fun s2 =>
            (join_on_right_names schema_right right_on).map
              (fun jor =>
                add_right_cols_spec schema_left schema_right jor options.args
                  s2)))

/-- Error type of the excerpted module; `polars_ensure!(..., ComputeError:
...)` produces a compute error carrying a message. -/
inductive PolarsError where
  | computeError (msg : String)
deriving DecidableEq, Repr

/-- Message of the hive-collision `polars_ensure!`. -/
def hive_duplicate_msg : String :=
  "invalid hive partitions: extending the schema with the hive partitioned columns creates duplicate fields."

/-- Rust `Schema::merge` (modelled from the spec for the part outside the
excerpted module: merge is by column-name insertion, silently overwriting
the stored dtype on a name collision): insert every column of `other` in
order. -/
def schema_merge (s other : Schema) : Schema :=
  other.foldl (fun a p => with_column a p.1 p.2) s

/-- Per-scan metadata `FileInfo`.  The reader schema (an arrow schema in
Rust) takes no part in any claim and is carried opaquely; the partition
info (`hive_parts`) is represented by its statistics schema, the only part
the excerpted module consumes. -/
structure FileInfo where
  schema : Schema
  reader_schema : Option Schema
  row_estimation : Option Nat × Nat
  hive_parts : Option Schema
deriving DecidableEq, Repr

/-- Rust `FileInfo::init_hive_partitions`.  The external collaborator call
`hive::HivePartitions::parse_url(url)` is modelled by the `parsed`
argument (the partition statistics schema when the path parses as
hive-partitioned).  Returns the Rust function's result together with the
post-call `FileInfo` (the Rust function mutates `self`): on a parsed path
the partition schema is merged into the file schema IN PLACE before the
length check, so on failure the merged schema remains while `hive_parts`
keeps its previous value (the assignment is skipped by `?`). -/
def init_hive_partitions (fi : FileInfo) (parsed : Option Schema) :
    Except PolarsError Unit × FileInfo :=
  match parsed with
  | none => (Except.ok (), { fi with hive_parts := none })
  | some hive_schema =>
    let expected_len := fi.schema.length + hive_schema.length
    let schema := schema_merge fi.schema hive_schema
    if schema.length = expected_len then
      (Except.ok (), { fi with schema := schema, hive_parts := some hive_schema })
    else
      (Except.error (PolarsError.computeError hive_duplicate_msg),
       { fi with schema := schema })

/-- Sub-expression trees of a `Selection` predicate; the estimator only
inspects which sub-nodes are `AExpr::BinaryExpr`. -/
inductive AExpr where
  | binaryExpr (left right : AExpr)
  | leaf
deriving DecidableEq, Repr

/-- Number of `BinaryExpr` sub-nodes of a predicate, as counted by
`expr_arena.iter(predicate).filter(matches BinaryExpr).count()`. -/
def AExpr.binary_count : AExpr → Nat
  | .binaryExpr l r => l.binary_count + r.binary_count + 1
  | .leaf => 0

/-- Union configuration: the optional output slice and the cached row
estimate written back by the estimator (`options.rows`). -/
structure UnionOptions where
  slice : Option (Int × Nat)
  rows : Option Nat × Nat
deriving DecidableEq, Repr

/-- Arena plan nodes (`ALogicalPlan`), reduced to the shape the estimator
dispatches on: the specially handled variants, a `scan` carrying its
precomputed row estimation, the feature-gated external `pythonScan`, and
`other` standing for every remaining variant, which the estimator treats
uniformly through `copy_inputs` (modelled from the spec: input handles are
copied into the caller's buffer in input order).  `taken` is the
placeholder left behind by `lp_arena.take`; it is unreachable in intended
use and modelled as a node with no inputs. -/
inductive ANode where
  | selection (predicate : AExpr) (input : Nat)
  | slice (input : Nat) (offset : Int) (len : Nat)
  | union (inputs : List Nat) (options : UnionOptions)
  | join (input_left input_right : Nat) (options : JoinOptions)
  | dataFrameScan (height : Nat)
  | scan (known_size : Option Nat) (estimated_size : Nat)
  | pythonScan
  | other (inputs : List Nat)
  | taken
deriving DecidableEq, Repr

/-- The plan arena: nodes referenced by position. -/
abbrev Arena := List ANode

/-- Arena lookup (`lp_arena.get`). -/
def arena_get (a : Arena) (i : Nat) : Option ANode :=
  a[i]?

/-- Arena update (`lp_arena.replace`, and `lp_arena.take` when the new node
is `taken`). -/
def arena_set (a : Arena) (i : Nat) (n : ANode) : Arena :=
  a.set i n

/-- Result triple of the estimator: known size, estimated size, filter
count (the Rust `(Option<usize>, usize, usize)`). -/
structure Est where
  known : Option Nat
  estimated : Nat
  filters : Nat
deriving DecidableEq, Repr

/-- Largest `usize` value (64-bit platform). -/
def usize_max : Nat := 2 ^ 64 - 1

/-- Rust `usize::saturating_add`. -/
def saturating_add (a b : Nat) : Nat :=
  min (a + b) usize_max

/-- Rust helper `apply_slice`: clamp the known and estimated counts of a
result triple to the slice length, when a slice is configured. -/
def apply_slice (out : Est) (slice : Option (Int × Nat)) : Est :=
  match slice with
  | some (_, len) =>
    { out with known := out.known.map (fun k => min len k),
               estimated := min len out.estimated }
  | none => out

/-- Rust `estimate_sizes` (selectivity decay).  The third match arm
multiplies the estimate by `0.9 ^ filter_count` in `f32` and truncates;
that floating-point expression is not shallowly embeddable, so it is the
`decay` parameter.  The match structure (zero filters pass the pair through
unchanged; otherwise the known size is dropped) is from the source. -/
def estimate_sizes (decay : Nat → Nat → Nat) (known_size : Option Nat)
    (estimated_size : Nat) (filter_count : Nat) : Option Nat × Nat :=
  match known_size, filter_count with
  | some k, 0 => (some k, estimated_size)
  | none, 0 => (none, estimated_size)
  | _, _ => (none, decay estimated_size filter_count)

/-- Combination of known sizes in the catch-all loop of the estimator:
`sum_output.0 = match sum_output.0 { None => out.0, p => p }`. -/
def combine_known (a b : Option Nat) : Option Nat :=
  match a with
  | none => b
  | p => p

/-- First present value of a list of optional known sizes; describes the
first-wins accumulation of the catch-all loop in processing order. -/
def first_known : List (Option Nat) → Option Nat
  | [] => none
  | some k :: _ => some k
  | none :: rest => first_known rest

mutual

/-- Rust `set_estimated_row_counts`: walk the plan from `root`, returning
the (known, estimated, filter count) triple, the updated arena (join and
union nodes cache their row estimates) and the updated scratch stack of
node handles.  `fuel` bounds the recursion depth (the Rust recursion
terminates because the plan graph is acyclic); `none` means the fuel ran
out or a handle was dangling. -/
def set_estimated_row_counts (decay : Nat → Nat → Nat) :
    Nat → Nat → Arena → Nat → List Nat → Option (Est × Arena × List Nat)
  | 0, _, _, _, _ => none
  | fuel + 1, root, arena, filter_count, scratch =>
    match arena_get arena root with
    | none => none
    | some (.selection predicate input) =>
      set_estimated_row_counts decay fuel input arena
        (filter_count + (predicate.binary_count + 1)) scratch
    | some (.slice input _ len) =>
      (set_estimated_row_counts decay fuel input arena filter_count
          scratch).map
        (fun r => (apply_slice r.1 (some (0, len)), r.2.1, r.2.2))
    | some (.union inputs options) =>
      let arena1 := arena_set arena root .taken
      (union_loop decay fuel inputs options.slice (none, 0) arena1
          scratch).map
        (fun r =>
          (⟨r.1.1, r.1.2, 0⟩,
           arena_set r.2.1 root (.union inputs { options with rows := r.1 }),
           r.2.2))
    | some (.join input_left input_right options) =>
      let arena1 := arena_set arena root .taken
      (set_estimated_row_counts decay fuel input_left arena1 0 scratch).bind
        (fun rl =>
          (set_estimated_row_counts decay fuel input_right rl.2.1 0
              rl.2.2).map
            (fun rr =>
              let out_left := rl.1
              let out_right := rr.1
              let rows_left := estimate_sizes decay out_left.known
                out_left.estimated out_left.filters
              let rows_right := estimate_sizes decay out_right.known
                out_right.estimated out_right.filters
              let options1 := { options with rows_left := rows_left,
                                             rows_right := rows_right }
              let out : Est :=
                match options1.args.how with
                | .left => ⟨rows_left.1, rows_left.2, out_left.filters⟩
                | .cross | .outer _ =>
                  match rows_left.1, rows_right.1 with
                  | some l, some r => ⟨some (l * r), rows_left.2, rows_right.2⟩
                  | _, _ => ⟨none, rows_left.2 * rows_right.2, 0⟩
                | _ =>
                  if rows_left.2 > rows_right.2 then ⟨rows_left.1, rows_left.2, 0⟩
                  else ⟨rows_right.1, rows_right.2, 0⟩
              (apply_slice out options1.args.slice,
               arena_set rr.2.1 root (.join input_left input_right options1),
               rr.2.2)))
    | some (.dataFrameScan height) =>
      some (⟨some height, height, filter_count⟩, arena, scratch)
    | some (.scan known_size estimated_size) =>
      some (⟨known_size, estimated_size, filter_count⟩, arena, scratch)
    | some .pythonScan =>
      some (⟨none, usize_max, filter_count⟩, arena, scratch)
    | some (.other inputs) =>
      drain_loop decay fuel filter_count ⟨none, 0, 0⟩ arena
        (inputs.reverse ++ scratch)
    | some .taken =>
      drain_loop decay fuel filter_count ⟨none, 0, 0⟩ arena scratch

/-- Per-branch loop of the `Union` arm: recurse with filter count zero,
clamp to the union's slice when configured, decay, and accumulate the
estimated size with a saturating add (the known component of the
accumulator is never written, so it stays `none`). -/
def union_loop (decay : Nat → Nat → Nat) :
    Nat → List Nat → Option (Int × Nat) → (Option Nat × Nat) → Arena →
    List Nat → Option ((Option Nat × Nat) × Arena × List Nat)
  | 0, _, _, _, _, _ => none
  | _ + 1, [], _, sum_output, arena, scratch => some (sum_output, arena, scratch)
  | fuel + 1, input :: rest, slice, sum_output, arena, scratch =>
    (set_estimated_row_counts decay fuel input arena 0 scratch).bind
      (fun r =>
        let out := match slice with
          | some (_, len) => apply_slice r.1 (some (0, len))
          | none => r.1
        let est := estimate_sizes decay out.known out.estimated out.filters
        union_loop decay fuel rest slice
          (sum_output.1, saturating_add sum_output.2 est.2) r.2.1 r.2.2)

/-- Pop-loop of the catch-all arm: `while let Some(input) = scratch.pop()`,
summing estimated sizes and filter counts and keeping the first known size
encountered in pop order. -/
def drain_loop (decay : Nat → Nat → Nat) :
    Nat → Nat → Est → Arena → List Nat → Option (Est × Arena × List Nat)
  | 0, _, _, _, _ => none
  | _ + 1, _, sum_output, arena, [] => some (sum_output, arena, [])
  | fuel + 1, filter_count, sum_output, arena, input :: rest =>
    (set_estimated_row_counts decay fuel input arena filter_count rest).bind
      (fun r =>
        drain_loop decay fuel filter_count
          ⟨combine_known sum_output.known r.1.known,
           sum_output.estimated + r.1.estimated,
           sum_output.filters + r.1.filters⟩ r.2.1 r.2.2)

end

/-- Concrete stand-in for the floating-point decay parameter, used only in
closed evaluations whose execution paths never reach the decay arm (every
such path has filter count zero). -/
def decay0 : Nat → Nat → Nat :=
  fun estimated _ => estimated

/-- Cross-join configuration with the default suffix and no slice. -/
def optsCross : JoinOptions :=
  { args := { how := .cross, suffix := "_right", slice := none },
    rows_left := (none, 0), rows_right := (none, 0) }

/-- Inner-join configuration with the default suffix and no slice. -/
def optsInner : JoinOptions :=
  { args := { how := .inner, suffix := "_right", slice := none },
    rows_left := (none, 0), rows_right := (none, 0) }

/-- Semi-join configuration with the default suffix and no slice. -/
def optsSemi : JoinOptions :=
  { args := { how := .semi, suffix := "_right", slice := none },
    rows_left := (none, 0), rows_right := (none, 0) }

/-- Left join-key expression resolving to the aliased field `k : int` (an
expression with an alias whose output name occurs in neither input). -/
def exprK : Expr := fun _ => some ⟨"k", DType.int⟩

/-- Right join-key expression resolving to the field `b : int`. -/
def exprB : Expr := fun _ => some ⟨"b", DType.int⟩

/-- Union configuration without an output slice. -/
def unionOptsNone : UnionOptions := { slice := none, rows := (none, 0) }

/-- Union configuration with an output slice of length 5. -/
def unionOptsSlice5 : UnionOptions := { slice := some (0, 5), rows := (none, 0) }

/-- Arena of a cross join of two scans with known counts 2 and 3. -/
def arenaCross : Arena :=
  [.join 1 2 optsCross, .scan (some 2) 2, .scan (some 3) 3]

/-- Arena of a two-branch union of scans with known counts 10 and 20. -/
def arenaUnion : Arena :=
  [.union [1, 2] unionOptsNone, .scan (some 10) 10, .scan (some 20) 20]

/-- Known sizes of the scans of `arenaUnion`, by handle. -/
def kfUnion : Nat → Option Nat := fun i => if i = 1 then some 10 else some 20

/-- Estimated sizes of the scans of `arenaUnion`, by handle. -/
def efUnion : Nat → Nat := fun i => if i = 1 then 10 else 20

/-- Arena of a sliced (length 5) two-branch union of scans estimated at 4
rows each. -/
def arenaUnionSliced : Arena :=
  [.union [1, 2] unionOptsSlice5, .scan none 4, .scan none 4]

/-- Known sizes of the scans of `arenaUnionSliced`, by handle. -/
def kfUnionSliced : Nat → Option Nat := fun _ => none

/-- Estimated sizes of the scans of `arenaUnionSliced`, by handle. -/
def efUnionSliced : Nat → Nat := fun _ => 4

/-- Arena of an unhandled-variant node over two scans that both report a
known count (1 and 2, in input order). -/
def arenaOther : Arena :=
  [.other [1, 2], .scan (some 1) 10, .scan (some 2) 20]

/-- Known sizes of the scans of `arenaOther`, by handle. -/
def kfOther : Nat → Option Nat := fun i => if i = 1 then some 1 else some 2

/-- Estimated sizes of the scans of `arenaOther`, by handle. -/
def efOther : Nat → Nat := fun i => if i = 1 then 10 else 20

/-- File info of a scan with the single column `a : int` and no partition
info yet. -/
def fileInfoA : FileInfo :=
  { schema := [("a", DType.int)], reader_schema := none,
    row_estimation := (none, 0), hive_parts := none }

theorem schema_contains_eq_true {s : Schema} {n : String} :
    schema_contains s n = true ↔ n ∈ schema_names s := by
  simp only [schema_contains, schema_names, List.any_eq_true, List.mem_map]
  constructor
  · rintro ⟨p, hp, he⟩
    exact ⟨p, hp, by simpa using he⟩
  · rintro ⟨p, hp, he⟩
    exact ⟨p, hp, by simpa using he⟩

theorem schema_contains_eq_false {s : Schema} {n : String} :
    schema_contains s n = false ↔ n ∉ schema_names s := by
  rw [← Bool.not_eq_true, not_iff_not]
  exact schema_contains_eq_true

theorem schema_contains_congr {s s' : Schema} (n : String)
    (h : schema_names s = schema_names s') :
    schema_contains s n = schema_contains s' n := by
  by_cases hm : n ∈ schema_names s
  · have hm' : n ∈ schema_names s' := h ▸ hm
    rw [schema_contains_eq_true.mpr hm, schema_contains_eq_true.mpr hm']
  · have hm' : n ∉ schema_names s' := h ▸ hm
    rw [schema_contains_eq_false.mpr hm, schema_contains_eq_false.mpr hm']

theorem map_fst_replace (s : Schema) (n : String) (d : DType) :
    (s.map (fun p => if p.1 == n then (n, d) else p)).map Prod.fst
      = s.map Prod.fst := by
  induction s with
  | nil => rfl
  | cons p t ih =>
    simp only [List.map_cons, ih, List.cons.injEq, and_true]
    by_cases hb : p.1 = n
    · simp [hb]
    · simp [hb]

theorem with_column_names_mem {s : Schema} {n : String} (d : DType)
    (h : n ∈ schema_names s) :
    schema_names (with_column s n d) = schema_names s := by
  rw [with_column, if_pos (schema_contains_eq_true.mpr h)]
  simpa only [schema_names] using map_fst_replace s n d

theorem with_column_names_not_mem {s : Schema} {n : String} (d : DType)
    (h : n ∉ schema_names s) :
    schema_names (with_column s n d) = schema_names s ++ [n] := by
  rw [with_column, if_neg (by simp [schema_contains_eq_false.mpr h])]
  simp [schema_names]

theorem with_column_length_mem {s : Schema} {n : String} (d : DType)
    (h : n ∈ schema_names s) :
    (with_column s n d).length = s.length := by
  have := congrArg List.length (with_column_names_mem d h)
  simpa [schema_names] using this

theorem with_column_length_not_mem {s : Schema} {n : String} (d : DType)
    (h : n ∉ schema_names s) :
    (with_column s n d).length = s.length + 1 := by
  have := congrArg List.length (with_column_names_not_mem d h)
  simpa [schema_names] using this

theorem with_column_nodup {s : Schema} {n : String} (d : DType)
    (h : (schema_names s).Nodup) :
    (schema_names (with_column s n d)).Nodup := by
  by_cases hm : n ∈ schema_names s
  · rw [with_column_names_mem d hm]; exact h
  · rw [with_column_names_not_mem d hm]
    simp [List.nodup_append, h, hm]

theorem with_column_mem {s : Schema} {m n : String} (d : DType)
    (h : m ∈ schema_names s) :
    m ∈ schema_names (with_column s n d) := by
  by_cases hm : n ∈ schema_names s
  · rw [with_column_names_mem d hm]; exact h
  · rw [with_column_names_not_mem d hm]; exact List.mem_append_left _ h

theorem with_column_mem_self (s : Schema) (n : String) (d : DType) :
    n ∈ schema_names (with_column s n d) := by
  by_cases hm : n ∈ schema_names s
  · rw [with_column_names_mem d hm]; exact hm
  · rw [with_column_names_not_mem d hm]; simp

theorem with_column_ext {sl acc : Schema} (n : String) (d : DType)
    (h1 : (schema_names acc).Nodup)
    (h2 : ∃ t, schema_names acc = schema_names sl ++ t) :
    (schema_names (with_column acc n d)).Nodup ∧
      ∃ t, schema_names (with_column acc n d) = schema_names sl ++ t := by
  refine ⟨with_column_nodup d h1, ?_⟩
  obtain ⟨t, ht⟩ := h2
  by_cases hm : n ∈ schema_names acc
  · exact ⟨t, by rw [with_column_names_mem d hm, ht]⟩
  · exact ⟨t ++ [n], by rw [with_column_names_not_mem d hm, ht, List.append_assoc]⟩

theorem copy_schema_eq_append (s : Schema) : ∀ acc : Schema,
    (∀ p ∈ s, p.1 ∉ schema_names acc) → (schema_names s).Nodup →
    copy_schema acc s = acc ++ s := by
  induction s with
  | nil => intro acc _ _; simp [copy_schema]
  | cons p t ih =>
    intro acc hdis hnd
    have hnd' : p.1 ∉ t.map Prod.fst ∧ (t.map Prod.fst).Nodup := by
      simpa [schema_names, List.nodup_cons] using hnd
    have hp : p.1 ∉ schema_names acc := hdis p (by simp)
    have hwc : with_column acc p.1 p.2 = acc ++ [p] := by
      rw [with_column, if_neg (by simp [schema_contains_eq_false.mpr hp])]
    have hstep : copy_schema acc (p :: t) = copy_schema (acc ++ [p]) t := by
      simp only [copy_schema, List.foldl_cons, hwc]
    rw [hstep, ih (acc ++ [p]) ?_ ?_]
    · simp
    · intro q hq
      have h1 : q.1 ∉ schema_names acc := hdis q (List.mem_cons_of_mem _ hq)
      have h2 : q.1 ≠ p.1 := by
        intro he
        exact hnd'.1 (he ▸ List.mem_map_of_mem Prod.fst hq)
      simp only [schema_names, List.map_append, List.map_cons, List.map_nil,
        List.mem_append, List.mem_singleton]
      rintro (hc | hc)
      · exact h1 hc
      · exact h2 hc
    · exact hnd'.2

theorem copy_schema_nil_eq {sl : Schema} (h : (schema_names sl).Nodup) :
    copy_schema [] sl = sl := by
  simpa using copy_schema_eq_append sl [] (by simp [schema_names]) h

theorem copy_schema_mem_acc (s : Schema) : ∀ {acc : Schema} {m : String},
    m ∈ schema_names acc → m ∈ schema_names (copy_schema acc s) := by
  induction s with
  | nil => intro acc m h; simpa [copy_schema] using h
  | cons p t ih =>
    intro acc m h
    exact ih (with_column_mem p.2 h)

theorem copy_schema_mem_elem (s : Schema) : ∀ {acc : Schema} {m : String}
    {d : DType}, (m, d) ∈ s → m ∈ schema_names (copy_schema acc s) := by
  induction s with
  | nil => intro acc m d h; cases h
  | cons p t ih =>
    intro acc m d h
    rcases List.mem_cons.mp h with h | h
    · subst h
      exact copy_schema_mem_acc t (with_column_mem_self acc m d)
    · exact ih h

theorem add_left_keys_ext {sl : Schema} : ∀ (lo : List Expr) {acc acc' : Schema},
    add_left_keys sl lo acc = some acc' →
    (schema_names acc).Nodup ∧ (∃ t, schema_names acc = schema_names sl ++ t) →
    (schema_names acc').Nodup ∧ ∃ t, schema_names acc' = schema_names sl ++ t := by
  intro lo
  induction lo with
  | nil =>
    intro acc acc' h hq
    simp only [add_left_keys, List.foldlM_nil, Option.pure_def,
      Option.some.injEq] at h
    exact h ▸ hq
  | cons e rest ih =>
    intro acc acc' h hq
    simp only [add_left_keys, List.foldlM_cons] at h
    cases hf : to_field e sl with
    | none => rw [hf] at h; simp at h
    | some fld =>
      rw [hf] at h
      simp only [Option.map_some', Option.some_bind] at h
      exact ih h (with_column_ext fld.name fld.dtype hq.1 hq.2)

theorem add_left_keys_mem {sl : Schema} : ∀ (lo : List Expr) {acc acc' : Schema}
    {m : String}, add_left_keys sl lo acc = some acc' →
    m ∈ schema_names acc → m ∈ schema_names acc' := by
  intro lo
  induction lo with
  | nil =>
    intro acc acc' m h hm
    simp only [add_left_keys, List.foldlM_nil, Option.pure_def,
      Option.some.injEq] at h
    exact h ▸ hm
  | cons e rest ih =>
    intro acc acc' m h hm
    simp only [add_left_keys, List.foldlM_cons] at h
    cases hf : to_field e sl with
    | none => rw [hf] at h; simp at h
    | some fld =>
      rw [hf] at h
      simp only [Option.map_some', Option.some_bind] at h
      exact ih h (with_column_mem fld.dtype hm)

theorem asof_key_step_ext {sl sr : Schema} {args : JoinArgs}
    {acc acc' : Schema} {pe : Expr × Expr}
    (h : asof_key_step sl sr args acc pe = some acc')
    (hq : (schema_names acc).Nodup ∧
      ∃ t, schema_names acc = schema_names sl ++ t) :
    (schema_names acc').Nodup ∧
      ∃ t, schema_names acc' = schema_names sl ++ t := by
  unfold asof_key_step at h
  cases hf1 : to_field pe.1 sl with
  | none => rw [hf1] at h; simp at h
  | some fl =>
    cases hf2 : to_field pe.2 sr with
    | none => rw [hf1, hf2] at h; simp at h
    | some fr =>
      rw [hf1, hf2] at h
      simp only [Option.map_some', Option.some_bind, Option.some.injEq] at h
      subst h
      by_cases hne : fl.name ≠ fr.name
      · rw [if_pos hne]
        by_cases hc : schema_contains sl fr.name
        · rw [if_pos hc]; exact with_column_ext _ _ hq.1 hq.2
        · rw [if_neg hc]; exact with_column_ext _ _ hq.1 hq.2
      · rw [if_neg hne]; exact hq

theorem asof_key_step_mem {sl sr : Schema} {args : JoinArgs}
    {acc acc' : Schema} {pe : Expr × Expr} {m : String}
    (h : asof_key_step sl sr args acc pe = some acc')
    (hm : m ∈ schema_names acc) : m ∈ schema_names acc' := by
  unfold asof_key_step at h
  cases hf1 : to_field pe.1 sl with
  | none => rw [hf1] at h; simp at h
  | some fl =>
    cases hf2 : to_field pe.2 sr with
    | none => rw [hf1, hf2] at h; simp at h
    | some fr =>
      rw [hf1, hf2] at h
      simp only [Option.map_some', Option.some_bind, Option.some.injEq] at h
      subst h
      by_cases hne : fl.name ≠ fr.name
      · rw [if_pos hne]
        by_cases hc : schema_contains sl fr.name
        · rw [if_pos hc]; exact with_column_mem _ hm
        · rw [if_neg hc]; exact with_column_mem _ hm
      · rw [if_neg hne]; exact hm

theorem asof_fold_ext {sl sr : Schema} {args : JoinArgs} :
    ∀ (pairs : List (Expr × Expr)) {acc acc' : Schema},
    pairs.foldlM (asof_key_step sl sr args) acc = some acc' →
    (schema_names acc).Nodup ∧ (∃ t, schema_names acc = schema_names sl ++ t) →
    (schema_names acc').Nodup ∧ ∃ t, schema_names acc' = schema_names sl ++ t := by
  intro pairs
  induction pairs with
  | nil =>
    intro acc acc' h hq
    simp only [List.foldlM_nil, Option.pure_def, Option.some.injEq] at h
    exact h ▸ hq
  | cons pe rest ih =>
    intro acc acc' h hq
    simp only [List.foldlM_cons] at h
    cases hs : asof_key_step sl sr args acc pe with
    | none => rw [hs] at h; simp at h
    | some a1 =>
      rw [hs] at h
      rw [Option.bind_eq_bind, Option.some_bind] at h
      exact ih h (asof_key_step_ext hs hq)

theorem asof_fold_mem {sl sr : Schema} {args : JoinArgs} :
    ∀ (pairs : List (Expr × Expr)) {acc acc' : Schema} {m : String},
    pairs.foldlM (asof_key_step sl sr args) acc = some acc' →
    m ∈ schema_names acc → m ∈ schema_names acc' := by
  intro pairs
  induction pairs with
  | nil =>
    intro acc acc' m h hm
    simp only [List.foldlM_nil, Option.pure_def, Option.some.injEq] at h
    exact h ▸ hm
  | cons pe rest ih =>
    intro acc acc' m h hm
    simp only [List.foldlM_cons] at h
    cases hs : asof_key_step sl sr args acc pe with
    | none => rw [hs] at h; simp at h
    | some a1 =>
      rw [hs] at h
      rw [Option.bind_eq_bind, Option.some_bind] at h
      exact ih h (asof_key_step_mem hs hm)

theorem add_asof_right_keys_ext {sl sr : Schema} {args : JoinArgs}
    {lo ro : List Expr} {acc acc' : Schema}
    (h : add_asof_right_keys sl sr lo ro args acc = some acc')
    (hq : (schema_names acc).Nodup ∧
      ∃ t, schema_names acc = schema_names sl ++ t) :
    (schema_names acc').Nodup ∧
      ∃ t, schema_names acc' = schema_names sl ++ t := by
  unfold add_asof_right_keys at h
  by_cases hmk : args.how.merges_join_keys
  · rw [if_pos hmk, Option.some.injEq] at h
    exact h ▸ hq
  · rw [if_neg hmk] at h
    exact asof_fold_ext (lo.zip ro) h hq

theorem add_asof_right_keys_mem {sl sr : Schema} {args : JoinArgs}
    {lo ro : List Expr} {acc acc' : Schema} {m : String}
    (h : add_asof_right_keys sl sr lo ro args acc = some acc')
    (hm : m ∈ schema_names acc) : m ∈ schema_names acc' := by
  unfold add_asof_right_keys at h
  by_cases hmk : args.how.merges_join_keys
  · rw [if_pos hmk, Option.some.injEq] at h
    exact h ▸ hm
  · rw [if_neg hmk] at h
    exact asof_fold_mem (lo.zip ro) h hm

theorem add_right_cols_ext {sl : Schema} {jor : List String} {args : JoinArgs} :
    ∀ (sr : Schema) {acc : Schema},
    (schema_names acc).Nodup ∧ (∃ t, schema_names acc = schema_names sl ++ t) →
    (schema_names (add_right_cols sl sr jor args acc)).Nodup ∧
      ∃ t, schema_names (add_right_cols sl sr jor args acc)
        = schema_names sl ++ t := by
  intro sr
  induction sr with
  | nil => intro acc hq; simpa [add_right_cols] using hq
  | cons p t ih =>
    intro acc hq
    have hstep : add_right_cols sl (p :: t) jor args acc
        = add_right_cols sl t jor args
            (if !jor.contains p.1 || is_outer_no_coalesce args.how then
              if schema_contains sl p.1 then
                if asof_by_dedup args.how p.1 then acc
                else with_column acc (join_suffix_name p.1 args.suffix) p.2
              else with_column acc p.1 p.2
            else acc) := by
      simp only [add_right_cols, List.foldl_cons]
    rw [hstep]
    apply ih
    by_cases h1 : (!jor.contains p.1 || is_outer_no_coalesce args.how) = true
    · rw [if_pos h1]
      by_cases h2 : schema_contains sl p.1
      · rw [if_pos h2]
        by_cases h3 : asof_by_dedup args.how p.1
        · rw [if_pos h3]; exact hq
        · rw [if_neg h3]; exact with_column_ext _ _ hq.1 hq.2
      · rw [if_neg h2]; exact with_column_ext _ _ hq.1 hq.2
    · rw [if_neg h1]; exact hq

theorem add_right_cols_mem {sl : Schema} {jor : List String} {args : JoinArgs} :
    ∀ (sr : Schema) {acc : Schema} {m : String},
    m ∈ schema_names acc → m ∈ schema_names (add_right_cols sl sr jor args acc) := by
  intro sr
  induction sr with
  | nil => intro acc m hm; simpa [add_right_cols] using hm
  | cons p t ih =>
    intro acc m hm
    have hstep : add_right_cols sl (p :: t) jor args acc
        = add_right_cols sl t jor args
            (if !jor.contains p.1 || is_outer_no_coalesce args.how then
              if schema_contains sl p.1 then
                if asof_by_dedup args.how p.1 then acc
                else with_column acc (join_suffix_name p.1 args.suffix) p.2
              else with_column acc p.1 p.2
            else acc) := by
      simp only [add_right_cols, List.foldl_cons]
    rw [hstep]
    apply ih
    by_cases h1 : (!jor.contains p.1 || is_outer_no_coalesce args.how) = true
    · rw [if_pos h1]
      by_cases h2 : schema_contains sl p.1
      · rw [if_pos h2]
        by_cases h3 : asof_by_dedup args.how p.1
        · rw [if_pos h3]; exact hm
        · rw [if_neg h3]; exact with_column_mem _ hm
      · rw [if_neg h2]; exact with_column_mem _ hm
    · rw [if_neg h1]; exact hm

theorem add_right_cols_suffix_mem {sl : Schema} {jor : List String}
    {args : JoinArgs} {n : String} {d : DType} :
    ∀ (sr : Schema) {acc : Schema}, (n, d) ∈ sr →
    (!jor.contains n || is_outer_no_coalesce args.how) = true →
    schema_contains sl n = true →
    asof_by_dedup args.how n = false →
    join_suffix_name n args.suffix
      ∈ schema_names (add_right_cols sl sr jor args acc) := by
  intro sr
  induction sr with
  | nil => intro acc h _ _ _; cases h
  | cons p t ih =>
    intro acc hmem hpass hcont hded
    have hstep : add_right_cols sl (p :: t) jor args acc
        = add_right_cols sl t jor args
            (if !jor.contains p.1 || is_outer_no_coalesce args.how then
              if schema_contains sl p.1 then
                if asof_by_dedup args.how p.1 then acc
                else with_column acc (join_suffix_name p.1 args.suffix) p.2
              else with_column acc p.1 p.2
            else acc) := by
      simp only [add_right_cols, List.foldl_cons]
    rw [hstep]
    rcases List.mem_cons.mp hmem with h | h
    · subst h
      rw [if_pos hpass, if_pos hcont, if_neg (by simp [hded])]
      exact add_right_cols_mem t (with_column_mem_self acc _ d)
    · exact ih h hpass hcont hded

theorem add_right_cols_bare_mem {sl : Schema} {jor : List String}
    {args : JoinArgs} {n : String} {d : DType} :
    ∀ (sr : Schema) {acc : Schema}, (n, d) ∈ sr →
    (!jor.contains n || is_outer_no_coalesce args.how) = true →
    schema_contains sl n = false →
    n ∈ schema_names (add_right_cols sl sr jor args acc) := by
  intro sr
  induction sr with
  | nil => intro acc h _ _; cases h
  | cons p t ih =>
    intro acc hmem hpass hcont
    have hstep : add_right_cols sl (p :: t) jor args acc
        = add_right_cols sl t jor args
            (if !jor.contains p.1 || is_outer_no_coalesce args.how then
              if schema_contains sl p.1 then
                if asof_by_dedup args.how p.1 then acc
                else with_column acc (join_suffix_name p.1 args.suffix) p.2
              else with_column acc p.1 p.2
            else acc) := by
      simp only [add_right_cols, List.foldl_cons]
    rw [hstep]
    rcases List.mem_cons.mp hmem with h | h
    · subst h
      rw [if_pos hpass, if_neg (by simp [hcont])]
      exact add_right_cols_mem t (with_column_mem_self acc n d)
    · exact ih h hpass hcont

theorem det_join_schema_default_ext {sl sr : Schema} {lo ro : List Expr}
    {opts : JoinOptions} {out : Schema}
    (hnd : (schema_names sl).Nodup)
    (h : det_join_schema_default sl sr lo ro opts = some out) :
    (schema_names out).Nodup ∧ ∃ t, schema_names out = schema_names sl ++ t := by
  unfold det_join_schema_default at h
  rcases Option.bind_eq_some.mp h with ⟨s1, h1, h'⟩
  rcases Option.bind_eq_some.mp h' with ⟨s2, h2, h''⟩
  rcases Option.map_eq_some'.mp h'' with ⟨jor, hjor, hout⟩
  have q0 : (schema_names (copy_schema [] sl)).Nodup ∧
      ∃ t, schema_names (copy_schema [] sl) = schema_names sl ++ t := by
    rw [copy_schema_nil_eq hnd]
    exact ⟨hnd, [], by simp⟩
  have q1 := add_left_keys_ext lo h1 q0
  have q2 := add_asof_right_keys_ext h2 q1
  exact hout ▸ add_right_cols_ext sr q2

theorem det_join_schema_eq_default {sl sr : Schema} {lo ro : List Expr}
    {opts : JoinOptions}
    (hsemi : opts.args.how ≠ .semi) (hanti : opts.args.how ≠ .anti) :
    det_join_schema sl sr lo ro opts
      = det_join_schema_default sl sr lo ro opts := by
  unfold det_join_schema
  cases hh : opts.args.how with
  | semi => exact absurd hh hsemi
  | anti => exact absurd hh hanti
  | _ => rfl

/-- C1 counterexample: the claimed layout (all left columns first, followed
by one appended entry per considered right-side column, suffixed on a
collision with the left schema) fails on the code.  With the left schema
`{a : int, a_right : int}`, the right schema `{a : str}` and a cross join
with suffix `_right`, the right column `a` collides with the left schema
and its suffixed name `a_right` already exists in the running schema, so
`with_column` overwrites the left `a_right` column in place instead of
appending: the output has two columns, not the three entries the claimed
layout lists. -/
theorem det_join_schema_layout_cex :
    det_join_schema [("a", DType.int), ("a_right", DType.int)]
        [("a", DType.str)] [] [] optsCross
      = some [("a", DType.int), ("a_right", DType.str)] ∧
    schema_names [("a", DType.int), ("a_right", DType.str)]
      ≠ claimed_join_names [("a", DType.int), ("a_right", DType.int)]
          [("a", DType.str)] [] optsCross.args :=
  ⟨rfl, by decide⟩

/-- C1 (amended): for every pair of input schemas such that the left one
has unique column names, and every successful run of `det_join_schema`,
the produced schema has unique column names and the left schema's columns
occupy the initial segment of the output in their original order; every
addition (aliased join keys and right-side columns) is appended after that
left block, but an addition whose output name already exists in the
running schema is merged into the existing entry in place rather than
appended. -/
theorem det_join_schema_unique_left_first
    (sl sr : Schema) (lo ro : List Expr) (opts : JoinOptions) (out : Schema)
    (hnd : (schema_names sl).Nodup)
    (h : det_join_schema sl sr lo ro opts = some out) :
    (schema_names out).Nodup ∧ ∃ t, schema_names out = schema_names sl ++ t := by
  by_cases hsa : opts.args.how = .semi ∨ opts.args.how = .anti
  · have hd : det_join_schema sl sr lo ro opts = some sl := by
      unfold det_join_schema
      rcases hsa with hh | hh <;> rw [hh]
    rw [hd, Option.some.injEq] at h
    subst h
    exact ⟨hnd, [], by simp⟩
  · push_neg at hsa
    rw [det_join_schema_eq_default hsa.1 hsa.2] at h
    exact det_join_schema_default_ext hnd h

/-- C1 witness: the amended theorem applied to a cross join of `{a : int}`
and `{b : str}`. -/
theorem det_join_schema_unique_left_first_witness :
    (schema_names [("a", DType.int), ("b", DType.str)]).Nodup ∧
      ∃ t, schema_names [("a", DType.int), ("b", DType.str)]
        = schema_names [("a", DType.int)] ++ t :=
  det_join_schema_unique_left_first [("a", DType.int)] [("b", DType.str)]
    [] [] optsCross [("a", DType.int), ("b", DType.str)] (by decide) rfl

/-- C2 counterexample: the claimed collision rule consults the running
output schema; the code consults the left input schema only.  With left
schema `{a : int}`, right schema `{k : str, b : int}`, a left key aliased
to `k` and the right key `b` (an inner join), the appended right column `k`
does not occur in the left schema, so the code inserts it under its bare
name and `with_column` overwrites the aliased key column `k : int` in
place; the spec-following variant `det_join_schema_spec` (collision check
against the running schema) appends it as `k_right` instead, and the two
outputs differ. -/
theorem det_join_schema_running_check_cex :
    det_join_schema [("a", DType.int)] [("k", DType.str), ("b", DType.int)]
        [exprK] [exprB] optsInner
      = some [("a", DType.int), ("k", DType.str)] ∧
    det_join_schema_spec [("a", DType.int)] [("k", DType.str), ("b", DType.int)]
        [exprK] [exprB] optsInner
      = some [("a", DType.int), ("k", DType.int), ("k_right", DType.str)] ∧
    (some [("a", DType.int), ("k", DType.str)] : Option Schema)
      ≠ some [("a", DType.int), ("k", DType.int), ("k_right", DType.str)] :=
  ⟨rfl, rfl, by decide⟩

/-- C2 (amended): in every non-Semi/Anti join, a right-schema column that
is considered for appending (not a name-merged join key, or any right
column when the join is Outer with coalesce false) is added under its name
with the configured suffix attached exactly when its name already exists
in the LEFT INPUT schema (in which case the left column also keeps its
bare name in the output), the matching as-of "by"-key pairs excepted; a
considered right column whose name is absent from the left schema is added
under its bare name, merging with any running entry of that name. -/
theorem det_join_schema_left_collision_rule
    (sl sr : Schema) (lo ro : List Expr) (opts : JoinOptions) (out : Schema)
    (jor : List String) (n : String) (d : DType)
    (hsemi : opts.args.how ≠ .semi) (hanti : opts.args.how ≠ .anti)
    (h : det_join_schema sl sr lo ro opts = some out)
    (hjor : join_on_right_names sr ro = some jor)
    (hmem : (n, d) ∈ sr)
    (hpass : (!jor.contains n || is_outer_no_coalesce opts.args.how) = true) :
    (schema_contains sl n = true → asof_by_dedup opts.args.how n = false →
      join_suffix_name n opts.args.suffix ∈ schema_names out ∧
        n ∈ schema_names out) ∧
    (schema_contains sl n = false → n ∈ schema_names out) := by
  rw [det_join_schema_eq_default hsemi hanti] at h
  unfold det_join_schema_default at h
  rcases Option.bind_eq_some.mp h with ⟨s1, h1, h'⟩
  rcases Option.bind_eq_some.mp h' with ⟨s2, h2, h''⟩
  rcases Option.map_eq_some'.mp h'' with ⟨jor', hjor', hout⟩
  have hj : jor' = jor := by rw [hjor'] at hjor; exact Option.some.inj hjor
  subst hj
  subst hout
  constructor
  · intro hcont hded
    constructor
    · exact add_right_cols_suffix_mem sr hmem hpass hcont hded
    · have hnl : n ∈ schema_names sl := schema_contains_eq_true.mp hcont
      rcases List.mem_map.mp hnl with ⟨p, hp, hpn⟩
      have h0 : n ∈ schema_names (copy_schema [] sl) := by
        have : (n, p.2) ∈ sl := by
          have : p = (n, p.2) := by
            cases p; simp at hpn; simp [hpn]
          exact this ▸ hp
        exact copy_schema_mem_elem sl this
      have hm1 := add_left_keys_mem lo h1 h0
      have hm2 := add_asof_right_keys_mem h2 hm1
      exact add_right_cols_mem sr hm2
  · intro hcont
    exact add_right_cols_bare_mem sr hmem hpass hcont

/-- C2 witness: the amended theorem applied to a cross join of `{a : int}`
and `{a : str}` with suffix `_right`, where the collision with the left
schema yields the suffixed column `a_right` while the left column keeps
its bare name. -/
theorem det_join_schema_left_collision_rule_witness :
    join_suffix_name "a" optsCross.args.suffix
        ∈ schema_names [("a", DType.int), ("a_right", DType.str)] ∧
      "a" ∈ schema_names [("a", DType.int), ("a_right", DType.str)] :=
  (det_join_schema_left_collision_rule [("a", DType.int)] [("a", DType.str)]
    [] [] optsCross [("a", DType.int), ("a_right", DType.str)] [] "a"
    DType.str (by decide) (by decide) rfl rfl (by decide) (by decide)).1
    rfl rfl

/-- C3: for every Semi or Anti join, `det_join_schema` returns exactly the
left input schema (same names, dtypes and order), for every right schema,
key expressions and configuration. -/
theorem det_join_schema_semi_anti
    (sl sr : Schema) (lo ro : List Expr) (opts : JoinOptions)
    (h : opts.args.how = .semi ∨ opts.args.how = .anti) :
    det_join_schema sl sr lo ro opts = some sl := by
  unfold det_join_schema
  rcases h with hh | hh <;> rw [hh]

/-- C3 witness: a semi join of `{a : int}` against `{b : str}` keeps the
left schema unchanged. -/
theorem det_join_schema_semi_anti_witness :
    det_join_schema [("a", DType.int)] [("b", DType.str)] [] [] optsSemi
      = some [("a", DType.int)] :=
  det_join_schema_semi_anti [("a", DType.int)] [("b", DType.str)] [] []
    optsSemi (Or.inl rfl)

theorem filter_length_eq_iff {α : Type} {p : α → Bool} :
    ∀ {l : List α}, (l.filter p).length = l.length ↔ ∀ a ∈ l, p a = true := by
  intro l
  induction l with
  | nil => simp
  | cons a t ih =>
    by_cases hp : p a = true
    · simp only [List.filter_cons, hp, if_true, List.length_cons,
        Nat.add_right_cancel_iff, ih, List.mem_cons]
      constructor
      · rintro ht b (rfl | hb)
        · exact hp
        · exact ht b hb
      · intro ht b hb
        exact ht b (Or.inr hb)
    · have hp' : p a = false := by simpa using hp
      simp only [List.filter_cons, hp', Bool.false_eq_true, if_false,
        List.length_cons]
      constructor
      · intro hlen
        exact absurd hlen (by have := List.length_filter_le p t; omega)
      · intro ht
        exact absurd (ht a (by simp)) (by simp [hp'])

theorem schema_merge_cons (fs : Schema) (p : String × DType)
    (t : List (String × DType)) :
    schema_merge fs (p :: t) = schema_merge (with_column fs p.1 p.2) t := by
  simp only [schema_merge, List.foldl_cons]

theorem schema_merge_length (hs : List (String × DType)) : ∀ fs : Schema,
    (schema_names hs).Nodup →
    (schema_merge fs hs).length
      = fs.length + (hs.filter (fun p => !schema_contains fs p.1)).length := by
  induction hs with
  | nil => intro fs _; simp [schema_merge]
  | cons p t ih =>
    intro fs hnd
    have hnd' : p.1 ∉ t.map Prod.fst ∧ (t.map Prod.fst).Nodup := by
      simpa [schema_names, List.nodup_cons] using hnd
    rw [schema_merge_cons]
    by_cases hm : p.1 ∈ schema_names fs
    · have hlen : (with_column fs p.1 p.2).length = fs.length :=
        with_column_length_mem p.2 hm
      have hnames : schema_names (with_column fs p.1 p.2) = schema_names fs :=
        with_column_names_mem p.2 hm
      rw [ih (with_column fs p.1 p.2) (by simpa [schema_names] using hnd'.2),
        hlen]
      have hfilter : t.filter (fun q => !schema_contains (with_column fs p.1 p.2) q.1)
          = t.filter (fun q => !schema_contains fs q.1) := by
        apply List.filter_congr
        intro q _
        rw [schema_contains_congr q.1 hnames]
      rw [hfilter]
      have hp : (!schema_contains fs p.1) = false := by
        simp [schema_contains_eq_true.mpr hm]
      simp [List.filter_cons, hp]
    · have hlen : (with_column fs p.1 p.2).length = fs.length + 1 :=
        with_column_length_not_mem p.2 hm
      have hnames : schema_names (with_column fs p.1 p.2)
          = schema_names fs ++ [p.1] :=
        with_column_names_not_mem p.2 hm
      rw [ih (with_column fs p.1 p.2) (by simpa [schema_names] using hnd'.2),
        hlen]
      have hfilter : t.filter (fun q => !schema_contains (with_column fs p.1 p.2) q.1)
          = t.filter (fun q => !schema_contains fs q.1) := by
        apply List.filter_congr
        intro q hq
        have hqp : q.1 ≠ p.1 := by
          intro he
          exact hnd'.1 (he ▸ List.mem_map_of_mem Prod.fst hq)
        by_cases hqm : q.1 ∈ schema_names fs
        · rw [schema_contains_eq_true.mpr hqm,
            schema_contains_eq_true.mpr (by rw [hnames]; exact List.mem_append_left _ hqm)]
        · rw [schema_contains_eq_false.mpr hqm,
            schema_contains_eq_false.mpr ?_]
          rw [hnames]
          simp only [List.mem_append, List.mem_singleton]
          rintro (hc | hc)
          · exact hqm hc
          · exact hqp hc
      rw [hfilter]
      have hp : (!schema_contains fs p.1) = true := by
        simp [schema_contains_eq_false.mpr hm]
      simp only [List.filter_cons, hp, if_true, List.length_cons]
      omega

/-- C9: on a path that parses as hive-partitioned, `init_hive_partitions`
succeeds exactly when no partition column name already exists in the file
schema (equivalently, when the merged schema's length equals the sum of the
two input lengths; the merge silently overwrites collisions, which the
length check detects); on success the resulting schema length is the sum
of the two input lengths and the partition-info field is set. -/
theorem init_hive_partitions_collision_iff (fi : FileInfo) (hs : Schema)
    (hnd : (schema_names hs).Nodup) :
    ((init_hive_partitions fi (some hs)).1 = Except.ok ()
      ↔ ∀ p ∈ hs, p.1 ∉ schema_names fi.schema) ∧
    ((∀ p ∈ hs, p.1 ∉ schema_names fi.schema) →
      (init_hive_partitions fi (some hs)).2.schema.length
          = fi.schema.length + hs.length ∧
      (init_hive_partitions fi (some hs)).2.hive_parts = some hs) := by
  have hlen := schema_merge_length hs fi.schema hnd
  have hiff : (schema_merge fi.schema hs).length
      = fi.schema.length + hs.length
      ↔ ∀ p ∈ hs, p.1 ∉ schema_names fi.schema := by
    rw [hlen]
    constructor
    · intro h p hp
      have : (hs.filter (fun p => !schema_contains fi.schema p.1)).length
          = hs.length := by omega
      have hall := filter_length_eq_iff.mp this p hp
      intro hc
      rw [schema_contains_eq_true.mpr hc] at hall
      simp at hall
    · intro h
      have : (hs.filter (fun p => !schema_contains fi.schema p.1)).length
          = hs.length := by
        apply filter_length_eq_iff.mpr
        intro p hp
        simp [schema_contains_eq_false.mpr (h p hp)]
      omega
  constructor
  · constructor
    · intro hok
      apply hiff.mp
      by_contra hne
      simp only [init_hive_partitions] at hok
      rw [if_neg hne] at hok
      simp at hok
    · intro hnew
      simp only [init_hive_partitions]
      rw [if_pos (hiff.mpr hnew)]
  · intro hnew
    have heq := hiff.mpr hnew
    simp only [init_hive_partitions]
    rw [if_pos heq]
    exact ⟨heq, rfl⟩

/-- C9 witness: merging the fresh partition column `p : int` into the file
schema `{a : int}` succeeds with total length 2 and sets the partition
info; the success side of the theorem is instantiated at that input. -/
theorem init_hive_partitions_collision_iff_witness :
    (init_hive_partitions fileInfoA (some [("p", DType.int)])).2.schema.length = 2 ∧
    (init_hive_partitions fileInfoA (some [("p", DType.int)])).2.hive_parts
      = some [("p", DType.int)] :=
  (init_hive_partitions_collision_iff fileInfoA [("p", DType.int)]
    (by decide)).2 (by decide)

/-- C10: `init_hive_partitions` is not atomic on failure: whenever the
post-merge length check fails, the returned state carries the merged
schema (the collision already overwrote the file column in place) rather
than the original one, while `hive_parts` keeps its previous (unset)
value. -/
theorem init_hive_partitions_error_state (fi : FileInfo) (hs : Schema)
    (hcol : (schema_merge fi.schema hs).length ≠ fi.schema.length + hs.length) :
    (init_hive_partitions fi (some hs)).1
        = Except.error (PolarsError.computeError hive_duplicate_msg) ∧
    (init_hive_partitions fi (some hs)).2
        = { fi with schema := schema_merge fi.schema hs } ∧
    (init_hive_partitions fi (some hs)).2.hive_parts = fi.hive_parts := by
  simp only [init_hive_partitions]
  rw [if_neg hcol]
  exact ⟨rfl, rfl, rfl⟩

/-- C10 witness: merging the colliding partition schema `{a : str}` into
the file info with schema `{a : int}` fails, and the failed state carries
the merged schema `{a : str}` (the dtype overwritten in place), which
differs from the pre-call schema, while `hive_parts` stays `none`. -/
theorem init_hive_partitions_error_state_witness :
    (init_hive_partitions fileInfoA (some [("a", DType.str)])).1
        = Except.error (PolarsError.computeError hive_duplicate_msg) ∧
    (init_hive_partitions fileInfoA (some [("a", DType.str)])).2.hive_parts
        = none ∧
    (init_hive_partitions fileInfoA (some [("a", DType.str)])).2.schema
        ≠ fileInfoA.schema := by
  have h := init_hive_partitions_error_state fileInfoA [("a", DType.str)]
    (by decide)
  exact ⟨h.1, h.2.2.trans rfl, by decide⟩

theorem combine_known_none (a : Option Nat) : combine_known a none = a := by
  cases a <;> rfl

theorem combine_known_assoc (a b c : Option Nat) :
    combine_known (combine_known a b) c = combine_known a (combine_known b c) := by
  cases a <;> rfl

theorem first_known_cons (b : Option Nat) (l : List (Option Nat)) :
    first_known (b :: l) = combine_known b (first_known l) := by
  cases b <;> rfl

theorem estimate_sizes_zero (decay : Nat → Nat → Nat) (k : Option Nat)
    (e : Nat) : estimate_sizes decay k e 0 = (k, e) := by
  cases k <;> rfl

theorem saturating_add_of_le {a b : Nat} (h : a + b ≤ usize_max) :
    saturating_add a b = a + b := by
  unfold saturating_add
  omega

theorem foldl_satadd_map (g : Nat → Nat) : ∀ (hs : List Nat) (a : Nat),
    a + (hs.map g).sum ≤ usize_max →
    hs.foldl (fun acc i => saturating_add acc (g i)) a = a + (hs.map g).sum := by
  intro hs
  induction hs with
  | nil => intro a _; simp
  | cons i t ih =>
    intro a hle
    simp only [List.foldl_cons, List.map_cons, List.sum_cons] at *
    have h1 : saturating_add a (g i) = a + g i :=
      saturating_add_of_le (by omega)
    rw [h1, ih (a + g i) (by omega)]
    omega

theorem scan_step (decay : Nat → Nat → Nat) (f i : Nat) (arena : Arena)
    (fc : Nat) (sc : List Nat) {k : Option Nat} {e : Nat}
    (hi : arena_get arena i = some (.scan k e)) :
    set_estimated_row_counts decay (f + 1) i arena fc sc
      = some (⟨k, e, fc⟩, arena, sc) := by
  simp only [set_estimated_row_counts, hi]

theorem drain_loop_scans (decay : Nat → Nat → Nat) (fc : Nat)
    (kf : Nat → Option Nat) (ef : Nat → Nat) :
    ∀ (hs : List Nat) (fuel : Nat) (sum : Est) (arena : Arena),
      (∀ i ∈ hs, arena_get arena i = some (.scan (kf i) (ef i))) →
      hs.length + 1 ≤ fuel →
      drain_loop decay fuel fc sum arena hs =
        some (⟨combine_known sum.known (first_known (hs.map kf)),
               sum.estimated + (hs.map ef).sum,
               sum.filters + hs.length * fc⟩, arena, []) := by
  intro hs
  induction hs with
  | nil =>
    intro fuel sum arena _ hfuel
    obtain ⟨f, rfl⟩ : ∃ f, fuel = f + 1 := ⟨fuel - 1, by omega⟩
    simp only [drain_loop, List.map_nil, first_known, combine_known_none,
      List.sum_nil, Nat.add_zero, List.length_nil, Nat.zero_mul]
  | cons i t ih =>
    intro fuel sum arena hin hfuel
    obtain ⟨f, rfl⟩ : ∃ f, fuel = f + 1 := ⟨fuel - 1, by omega⟩
    have hfl : t.length + 1 ≤ f := by
      simp only [List.length_cons] at hfuel; omega
    obtain ⟨f', rfl⟩ : ∃ f', f = f' + 1 := ⟨f - 1, by omega⟩
    have hi := hin i (by simp)
    simp only [drain_loop]
    rw [scan_step decay f' i arena fc t hi, Option.some_bind]
    dsimp only
    rw [ih (f' + 1) _ arena (fun j hj => hin j (by simp [hj])) (by omega)]
    have hA : combine_known (combine_known sum.known (kf i))
        (first_known (t.map kf))
        = combine_known sum.known (first_known ((i :: t).map kf)) := by
      rw [List.map_cons, first_known_cons, combine_known_assoc]
    have hB : sum.estimated + ef i + (t.map ef).sum
        = sum.estimated + ((i :: t).map ef).sum := by
      simp only [List.map_cons, List.sum_cons]; omega
    have hC : sum.filters + fc + t.length * fc
        = sum.filters + (i :: t).length * fc := by
      rw [List.length_cons, Nat.succ_mul]; omega
    rw [hA, hB, hC]

theorem union_loop_scans (decay : Nat → Nat → Nat) (kf : Nat → Option Nat)
    (ef : Nat → Nat) (slice : Option (Int × Nat)) :
    ∀ (hs : List Nat) (fuel : Nat) (sum : Option Nat × Nat) (arena : Arena)
      (sc : List Nat),
      (∀ i ∈ hs, arena_get arena i = some (.scan (kf i) (ef i))) →
      hs.length + 1 ≤ fuel →
      union_loop decay fuel hs slice sum arena sc =
        some ((sum.1, hs.foldl (fun acc i => saturating_add acc
          (match slice with
           | some (_, len) => min len (ef i)
           | none => ef i)) sum.2), arena, sc) := by
  intro hs
  induction hs with
  | nil =>
    intro fuel sum arena sc _ hfuel
    obtain ⟨f, rfl⟩ : ∃ f, fuel = f + 1 := ⟨fuel - 1, by omega⟩
    simp only [union_loop, List.foldl_nil]
  | cons i t ih =>
    intro fuel sum arena sc hin hfuel
    obtain ⟨f, rfl⟩ : ∃ f, fuel = f + 1 := ⟨fuel - 1, by omega⟩
    have hfl : t.length + 1 ≤ f := by
      simp only [List.length_cons] at hfuel; omega
    obtain ⟨f', rfl⟩ : ∃ f', f = f' + 1 := ⟨f - 1, by omega⟩
    have hi := hin i (by simp)
    simp only [union_loop]
    rw [scan_step decay f' i arena 0 sc hi, Option.some_bind]
    cases slice with
    | none =>
      dsimp only
      rw [estimate_sizes_zero]
      dsimp only
      rw [ih (f' + 1) _ arena sc (fun j hj => hin j (by simp [hj])) (by omega)]
      simp only [List.foldl_cons]
    | some p =>
      rcases p with ⟨off, len⟩
      dsimp only [apply_slice]
      rw [estimate_sizes_zero]
      dsimp only
      rw [ih (f' + 1) _ arena sc (fun j hj => hin j (by simp [hj])) (by omega)]
      simp only [List.foldl_cons]

/-- C4: evaluation of the Cross-join combination at the failing input.  The
left input is a scan with known count 2 (estimate 2) and the right a scan
with known count 3 (estimate 3); both sides decay trivially (no filters),
so rows_left = (some 2, 2) and rows_right = (some 3, 3).  The combined
triple returned by the code is (some 6, 2, 3): the known count is the
product and the estimated count is the left estimate as claimed, but the
right-hand estimate 3 is NOT discarded — it is returned as the third
component of the triple, which every caller interprets as the filter
count (summed by the catch-all arm, fed to the 0.9-power selectivity decay
by the union arm), where the sibling branch writes 0. -/
theorem set_estimated_row_counts_cross_known_eval :
    (set_estimated_row_counts decay0 4 0 arenaCross 0 []).map (fun r => r.1)
      = some ⟨some 6, 2, 3⟩ := rfl

/-- C5: for every union node without a configured output slice whose
branches are scans, the estimator recurses into each branch with filter
count zero, decays trivially, and returns known = none (even though every
branch may report a known count), estimated = the sum of the branch
estimates and filter count 0, caching the pair (none, sum) into the union
node's configuration (the hypothesis bounding the sum by `usize_max` makes
the saturating addition exact). -/
theorem set_estimated_row_counts_union_sums
    (decay : Nat → Nat → Nat) (fuel root : Nat) (inputs : List Nat)
    (opts : UnionOptions) (arena : Arena) (kf : Nat → Option Nat)
    (ef : Nat → Nat) (fc : Nat) (sc : List Nat)
    (hroot : arena_get arena root = some (.union inputs opts))
    (hslice : opts.slice = none)
    (hin : ∀ i ∈ inputs,
      arena_get (arena_set arena root .taken) i = some (.scan (kf i) (ef i)))
    (hfuel : inputs.length + 2 ≤ fuel)
    (hmax : (inputs.map ef).sum ≤ usize_max) :
    set_estimated_row_counts decay fuel root arena fc sc =
      some (⟨none, (inputs.map ef).sum, 0⟩,
            arena_set arena root
              (.union inputs { opts with rows := (none, (inputs.map ef).sum) }),
            sc) := by
  obtain ⟨f, rfl⟩ : ∃ f, fuel = f + 1 := ⟨fuel - 1, by omega⟩
  simp only [set_estimated_row_counts, hroot, hslice]
  rw [union_loop_scans decay kf ef none inputs f (none, 0)
    (arena_set arena root .taken) sc hin (by omega)]
  dsimp only [Option.map_some']
  rw [foldl_satadd_map ef inputs 0 (by simpa using hmax)]
  simp only [Nat.zero_add, arena_set, List.set_set]

/-- C5 witness: the theorem applied to the union of two scans with
(known, estimated) = (10, 10) and (20, 20): the result is
(known = none, estimated = 30, filters = 0) and the pair (none, 30) is
cached in the union options. -/
theorem set_estimated_row_counts_union_sums_witness :
    set_estimated_row_counts decay0 9 0 arenaUnion 0 [] =
      some (⟨none, 30, 0⟩,
            [.union [1, 2] { slice := none, rows := (none, 30) },
             .scan (some 10) 10, .scan (some 20) 20],
            []) := by
  have h := set_estimated_row_counts_union_sums decay0 9 0 [1, 2]
    unionOptsNone arenaUnion kfUnion efUnion 0 []
    rfl rfl (by decide) (by decide) (by decide)
  simpa using h

/-- C6 counterexample: with a union carrying the output slice (0, 5) over
two branches estimated at 4 rows each (no filters, so decay is the
identity), the code clamps each branch before summing and returns
estimated = min 5 4 + min 5 4 = 8; the claimed single post-sum clamp would
return min 5 (4 + 4) = 5. -/
theorem set_estimated_row_counts_union_slice_cex :
    (set_estimated_row_counts decay0 9 0 arenaUnionSliced 0 []).map
        (fun r => r.1.estimated) = some 8 ∧
      (8 : Nat) ≠ min 5 (4 + 4) :=
  ⟨rfl, by decide⟩

/-- C6 (amended): for every union node carrying a configured output slice
of length L whose branches are scans, the slice clamp is applied to each
branch's result individually, before decay and summation: the returned
estimated count equals the sum over branches of min(L, branch estimate),
and no clamp is applied to the sum. -/
theorem set_estimated_row_counts_union_slice_each
    (decay : Nat → Nat → Nat) (fuel root : Nat) (inputs : List Nat)
    (opts : UnionOptions) (arena : Arena) (kf : Nat → Option Nat)
    (ef : Nat → Nat) (fc : Nat) (sc : List Nat) (off : Int) (len : Nat)
    (hroot : arena_get arena root = some (.union inputs opts))
    (hslice : opts.slice = some (off, len))
    (hin : ∀ i ∈ inputs,
      arena_get (arena_set arena root .taken) i = some (.scan (kf i) (ef i)))
    (hfuel : inputs.length + 2 ≤ fuel)
    (hmax : (inputs.map (fun i => min len (ef i))).sum ≤ usize_max) :
    set_estimated_row_counts decay fuel root arena fc sc =
      some (⟨none, (inputs.map (fun i => min len (ef i))).sum, 0⟩,
            arena_set arena root
              (.union inputs
                { opts with
                  rows := (none, (inputs.map (fun i => min len (ef i))).sum) }),
            sc) := by
  obtain ⟨f, rfl⟩ : ∃ f, fuel = f + 1 := ⟨fuel - 1, by omega⟩
  simp only [set_estimated_row_counts, hroot, hslice]
  rw [union_loop_scans decay kf ef (some (off, len)) inputs f (none, 0)
    (arena_set arena root .taken) sc hin (by omega)]
  dsimp only [Option.map_some']
  rw [foldl_satadd_map (fun i => min len (ef i)) inputs 0 (by simpa using hmax)]
  simp only [Nat.zero_add, arena_set, List.set_set]

/-- C6 witness: the amended theorem applied to the sliced union of two
scans estimated at 4 rows each: the result estimate is
min 5 4 + min 5 4 = 8 and (none, 8) is cached. -/
theorem set_estimated_row_counts_union_slice_each_witness :
    set_estimated_row_counts decay0 9 0 arenaUnionSliced 0 [] =
      some (⟨none, 8, 0⟩,
            [.union [1, 2] { slice := some (0, 5), rows := (none, 8) },
             .scan none 4, .scan none 4],
            []) := by
  have h := set_estimated_row_counts_union_slice_each decay0 9 0 [1, 2]
    unionOptsSlice5 arenaUnionSliced kfUnionSliced efUnionSliced 0 [] 0 5
    rfl rfl (by decide) (by decide) (by decide)
  simpa using h

/-- C8 counterexample: an unhandled-variant node whose two scan inputs
report known counts 1 and 2 (in input order).  The scratch stack processes
the inputs in reverse, so the combined known count is some 2, the count of
the LAST input in node order; the claim's first-wins rule over the node's
input order would give `first_known [some 1, some 2] = some 1`. -/
theorem set_estimated_row_counts_other_first_cex :
    (set_estimated_row_counts decay0 5 0 arenaOther 0 []).map
        (fun r => r.1.known) = some (some 2) ∧
      first_known [some 1, some 2] = some 1 ∧
      (some 2 : Option Nat) ≠ some 1 :=
  ⟨rfl, rfl, by decide⟩

/-- C8 (amended): for every plan node of an unhandled variant whose direct
inputs are scans (estimated at the top level, with an empty scratch
stack), the estimator pushes the input handles onto the scratch stack and
pops them, thereby processing the inputs in REVERSE input order; it
returns estimated = the sum of the inputs' estimates, filter count = the
sum of the inputs' returned filter counts (each scan passes the incoming
count through), and known count = the first known count in that reverse
processing order, i.e. the known count of the last input (in node input
order) that reports one. -/
theorem set_estimated_row_counts_other_scans
    (decay : Nat → Nat → Nat) (fuel root : Nat) (inputs : List Nat)
    (arena : Arena) (kf : Nat → Option Nat) (ef : Nat → Nat) (fc : Nat)
    (hroot : arena_get arena root = some (.other inputs))
    (hin : ∀ i ∈ inputs, arena_get arena i = some (.scan (kf i) (ef i)))
    (hfuel : inputs.length + 2 ≤ fuel) :
    set_estimated_row_counts decay fuel root arena fc [] =
      some (⟨first_known (inputs.reverse.map kf), (inputs.map ef).sum,
             inputs.length * fc⟩, arena, []) := by
  obtain ⟨f, rfl⟩ : ∃ f, fuel = f + 1 := ⟨fuel - 1, by omega⟩
  simp only [set_estimated_row_counts, hroot, List.append_nil]
  rw [drain_loop_scans decay fc kf ef inputs.reverse f ⟨none, 0, 0⟩ arena
    (fun i hi => hin i (List.mem_reverse.mp hi))
    (by simp only [List.length_reverse]; omega)]
  have h1 : (inputs.reverse.map ef).sum = (inputs.map ef).sum := by
    rw [List.map_reverse, List.sum_reverse]
  have h2 : inputs.reverse.length = inputs.length := List.length_reverse _
  simp only [combine_known, Nat.zero_add, h1, h2]

/-- C8 witness: the amended theorem applied to `arenaOther`: the result is
(known = some 2, estimated = 30, filters = 0). -/
theorem set_estimated_row_counts_other_scans_witness :
    set_estimated_row_counts decay0 5 0 arenaOther 0 [] =
      some (⟨some 2, 30, 0⟩, arenaOther, []) := by
  have h := set_estimated_row_counts_other_scans decay0 5 0 [1, 2] arenaOther
    kfOther efOther 0 rfl (by decide) (by decide)
  simpa using h

end PolarsSchema
